import Mathlib

/-!
Verification of the length-matching checker (`length_match.py`).

The script is Python 2. The embedding below models:
* the tolerance parser `get_tolerance` (the regex `(^|_)LM([0-9\.]+)($|_)` with
  `re.search`'s leftmost-match semantics, `float()` parsing, and `mm_to_nm`);
* IEEE-754 double-precision rounding (`roundToDouble`, round to nearest, ties to
  even, 53-bit significand) as exact rational arithmetic, since `float(...)`,
  `mm * 1e6`, `sum(...)` over track lengths and `(a + b) / 2.0` all round to
  doubles.  Overflow to infinity (Python `OverflowError` beyond about `2^1024`)
  is outside the modelled range;
* `median`, `test_netclass` (printed text is represented structurally by
  `OutLine`: every datum that determines a printed line is a field; the `%.2f`
  string rendering itself is not modelled), with Python exceptions as
  `Except.error` and the in-place `nets.sort()` as an explicit returned state;
* `get_board_properties` over an abstract track list (the `pcbnew` collaborator
  supplies, per track, net name, net-class name and length; lengths are integer
  nanometres per the collaborator contract, summed by Python as doubles).
  Python's `list(set(...))` iteration order is unspecified; the model fixes
  first-occurrence order, and every property proved is independent of it;
* one `Evaluate` pass of the `__main__` loop (`evalLoop` / `mainStep`): the
  per-group skip test against the previous snapshot and the snapshot update.
-/

set_option maxRecDepth 10000

/-! ### Character class `[0-9.]` of the tolerance regex -/

def isNumChar (c : Char) : Bool := c.isDigit || c = '.'

/-- One attempt of the regex `LM([0-9.]+)($|_)` anchored at the current
position (the `(^|_)` prefix has already been consumed by the caller).
Backtracking of the greedy `[0-9.]+` can never satisfy `($|_)` (a shortened run
is followed by a digit or period, never an underscore), so the maximal run is
the only candidate, and the match succeeds iff the maximal run is nonempty and
followed by `_` or the end of the string. -/
def matchHere (l : List Char) : Option (List Char) :=
  match l with
  | c1 :: c2 :: rest =>
    if c1 = 'L' ∧ c2 = 'M' then
      if rest.takeWhile isNumChar ≠ [] ∧
          (rest.dropWhile isNumChar = [] ∨
            (rest.dropWhile isNumChar).head? = some '_') then
        some (rest.takeWhile isNumChar)
      else none
    else none
  | _ => none

/-- Scan for `_LM([0-9.]+)($|_)` at successive positions, leftmost first:
`re.search` tries every start position in order, and at positions other than
the string start the `(^|_)` alternation can only match an underscore. -/
def searchAux : List Char → Option (List Char)
  | [] => none
  | c :: rest =>
    if c = '_' then
      match matchHere rest with
      | some n => some n
      | none => searchAux rest
    else searchAux rest

/-- `re.search(r"(^|_)LM([0-9\.]+)($|_)", s)`, returning `group(2)`:
first the `^` branch at position 0, then underscore-prefixed positions in
left-to-right order. -/
def searchLM (l : List Char) : Option (List Char) :=
  match matchHere l with
  | some n => some n
  | none => searchAux l

/-! ### Python `float(s)` for strings drawn from `[0-9.]+` -/

def digitsToNat (l : List Char) : ℕ :=
  l.foldl (fun a c => 10 * a + (c.toNat - '0'.toNat)) 0

/-- The exact rational value of a decimal numeral over `[0-9.]`, or `none`
when Python's `float()` raises `ValueError`: more than one period, or no
digit at all (the run is nonempty, so "no digit" means the single string "."). -/
def parseDecimal (l : List Char) : Option ℚ :=
  if l.count '.' = 0 then
    if l = [] then none else some (digitsToNat l)
  else if l.count '.' = 1 then
    if l.takeWhile (fun c => c ≠ '.') = [] ∧
        (l.dropWhile (fun c => c ≠ '.')).tail = [] then none
    else
      some ((digitsToNat (l.takeWhile (fun c => c ≠ '.')) : ℚ) +
        (digitsToNat ((l.dropWhile (fun c => c ≠ '.')).tail) : ℚ) /
          (10 : ℚ) ^ ((l.dropWhile (fun c => c ≠ '.')).tail).length)
  else none

/-! ### Double-precision rounding, as exact rational arithmetic -/

/-- Fuel-driven `⌊log₂ n⌋` (0 for `n < 2`); fuel 1100 covers every quantity in
range of a double. Structural recursion so the kernel can evaluate it. -/
def log2fuel : ℕ → ℕ → ℕ
  | 0, _ => 0
  | f + 1, n => if n < 2 then 0 else log2fuel f (n / 2) + 1

/-- `2 ^ e` for an integer exponent, kernel-evaluable. -/
def pow2 (e : ℤ) : ℚ :=
  if 0 ≤ e then ((2 ^ e.toNat : ℤ) : ℚ) else 1 / ((2 ^ (-e).toNat : ℤ) : ℚ)

/-- Round to the nearest integer, ties to even. -/
def roundHalfEven (q : ℚ) : ℤ :=
  let f := ⌊q⌋
  let r := q - f
  if r < 1 / 2 then f
  else if 1 / 2 < r then f + 1
  else if f % 2 = 0 then f else f + 1

/-- `⌊log₂ q⌋` for positive `q`: the bit-length estimate from numerator and
denominator is off by at most one, fixed by one comparison. -/
def floorLog2 (q : ℚ) : ℤ :=
  if pow2 ((log2fuel 1100 q.num.natAbs : ℤ) - (log2fuel 1100 q.den : ℤ)) ≤ q then
    (log2fuel 1100 q.num.natAbs : ℤ) - (log2fuel 1100 q.den : ℤ)
  else
    (log2fuel 1100 q.num.natAbs : ℤ) - (log2fuel 1100 q.den : ℤ) - 1

/-- Round a rational to the nearest IEEE-754 binary64 value (nearest, ties to
even, 53-bit significand), ignoring overflow and subnormals, which are out of
range for every quantity handled by the script. -/
def roundToDouble (q : ℚ) : ℚ :=
  if q = 0 then 0
  else if 0 < q then
    (roundHalfEven (q * pow2 (52 - floorLog2 q)) : ℚ) * pow2 (floorLog2 q - 52)
  else
    -((roundHalfEven (-q * pow2 (52 - floorLog2 (-q))) : ℚ) *
        pow2 (floorLog2 (-q) - 52))

/-- Python `int(q)` on a float: truncation toward zero. -/
def truncToInt (q : ℚ) : ℤ := if 0 ≤ q then ⌊q⌋ else -⌊-q⌋

/-- `mm_to_nm(mm) = int(mm * 1e6)`: the argument is already a double, `1e6` is
exact, the product rounds to a double, `int` truncates. -/
def mm_to_nm (mm : ℚ) : ℤ := truncToInt (roundToDouble (mm * 1000000))

/-- `nm_to_mm(nm) = float(nm) / 1e6` (used only for display). -/
def nm_to_mm (nm : ℤ) : ℚ := roundToDouble (roundToDouble (nm : ℚ) / 1000000)

/-- `get_tolerance`: `.ok none` when the regex does not match (Python `None`),
`.error ()` when it matches but `float(group(2))` raises `ValueError`,
`.ok (some t)` with `t = mm_to_nm(float(group(2)))` otherwise. -/
def get_tolerance (classname : String) : Except Unit (Option ℤ) :=
  match searchLM classname.data with
  | none => .ok none
  | some num =>
    match parseDecimal num with
    | none => .error ()
    | some q => .ok (some (mm_to_nm (roundToDouble q)))

/-! ### `median` -/

/-- `median(x)` (Python 2: `len(x)/2` is integer division).  Odd length: the
middle element of the sorted list, a Python `int`, exact.  Even length:
`(sorted(x)[n/2] + sorted(x)[n/2-1]) / 2.0` — the integer sum is converted to a
double (rounding) and halved (exact).  `none` models the `IndexError` on an
empty list. -/
def median (x : List ℤ) : Option ℚ :=
  if x.length % 2 ≠ 0 then
    ((List.insertionSort (· ≤ ·) x).get? (x.length / 2)).map (fun a => (a : ℚ))
  else
    match (List.insertionSort (· ≤ ·) x).get? (x.length / 2),
        (List.insertionSort (· ≤ ·) x).get? (x.length / 2 - 1) with
    | some a, some b => some (roundToDouble ((a : ℚ) + (b : ℚ)) / 2)
    | _, _ => none

/-! ### `test_netclass` -/

/-- Python tuple comparison on `(netname, length)` pairs, as used by
`nets.sort()`. -/
def pairLe (a b : String × ℤ) : Prop :=
  a.1 < b.1 ∨ (a.1 = b.1 ∧ a.2 ≤ b.2)

instance decPairLe : DecidableRel pairLe := fun a b => by
  unfold pairLe; infer_instance

/-- One step of Python's `min`/`max` fold over a sequence. -/
def optStep (g : ℤ → ℤ → ℤ) (o : Option ℤ) (x : ℤ) : Option ℤ :=
  some (match o with | none => x | some m => g m x)

/-- Python's `min` over a nonempty sequence, as the left fold it performs;
`none` models the `ValueError` on an empty sequence. -/
def listMin (l : List ℤ) : Option ℤ := l.foldl (optStep min) none

/-- Python's `max` over a nonempty sequence. -/
def listMax (l : List ℤ) : Option ℤ := l.foldl (optStep max) none

/-- One printed line of `test_netclass`.  Every datum that determines the text
is a field: the summary line's colour is `BRIGHTGREEN` iff `meets`, and the
`%.2f` values are `nm_to_mm` of the recorded integers; a net line prints the
net name, its length and its signed deviation from the median. -/
inductive OutLine where
  | summary (netclass : String) (meets : Bool) (toleranceNm : ℤ) (deltaNm : ℤ)
  | netline (netname : String) (lengthNm : ℤ) (medianNm : ℚ)
  deriving DecidableEq

/-- `test_netclass(netclass, tolerance, nets)`.  The first component of the
result is the final state of the caller's `nets` list (the in-place
`nets.sort()`), the second the printed lines, the third the returned `meets`
boolean.  `.error ()` models the `ValueError` of `min()` on an empty sequence,
raised before anything is printed. -/
def test_netclass (netclass : String) (tolerance : ℤ)
    (nets : List (String × ℤ)) :
    Except Unit (List (String × ℤ) × List OutLine × Bool) :=
  match listMin ((List.insertionSort pairLe nets).map Prod.snd),
      listMax ((List.insertionSort pairLe nets).map Prod.snd),
      median ((List.insertionSort pairLe nets).map Prod.snd) with
  | some minlen, some maxlen, some medlen =>
    .ok (List.insertionSort pairLe nets,
      OutLine.summary netclass (decide (maxlen - minlen < tolerance)) tolerance
          (maxlen - minlen) ::
        (List.insertionSort pairLe nets).map
          (fun p => OutLine.netline p.1 p.2 medlen),
      decide (maxlen - minlen < tolerance))
  | _, _, _ => .error ()

/-! ### `get_board_properties` -/

/-- One track as exposed by the `pcbnew` collaborator: its net's name, its
net's class name, and its length (integer nanometres per the collaborator
contract; `GetLength()` hands it to Python as a double). -/
structure Track where
  netname : String
  classname : String
  length : ℤ
  deriving DecidableEq

/-- Deduplication keeping first occurrences.  Python's `list(set(...))`
iteration order is unspecified; all properties proved below are independent of
this choice (net names are sorted afterwards, and group order is never used). -/
def uniqFirst (l : List String) : List String :=
  l.foldl (fun acc c => if c ∈ acc then acc else acc ++ [c]) []

/-- Python's `sum(...)` over track lengths: a left fold of double additions,
each addend being the double `GetLength()` value. -/
def pyFloatSum (ls : List ℤ) : ℚ :=
  ls.foldl (fun (acc : ℚ) (l : ℤ) => roundToDouble (acc + roundToDouble ((l : ℤ) : ℚ))) 0

/-- The `(netname, length)` list built for one net class: unique net names,
sorted, each with `int(sum(...))` of the lengths of its tracks.  Both filters
preserve the track order, as the Python comprehensions do. -/
def netsFor (tracks : List Track) (nc : String) : List (String × ℤ) :=
  (List.insertionSort (· ≤ ·)
      (uniqFirst ((tracks.filter (fun t => t.classname = nc)).map Track.netname))).map
    (fun n =>
      (n, truncToInt (pyFloatSum
        (((tracks.filter (fun t => t.classname = nc)).filter
            (fun t => t.netname = n)).map Track.length))))

/-- The loop body of `get_board_properties` over the unique net-class names:
classes whose `get_tolerance` is `None` are skipped, a `ValueError` from
`get_tolerance` propagates. -/
def buildProps (tracks : List Track) :
    List String → Except Unit (List (String × ℤ × List (String × ℤ)))
  | [] => .ok []
  | nc :: rest =>
    match get_tolerance nc with
    | .error e => .error e
    | .ok none => buildProps tracks rest
    | .ok (some tol) =>
      match buildProps tracks rest with
      | .error e => .error e
      | .ok r => .ok ((nc, tol, netsFor tracks nc) :: r)

/-- `get_board_properties`, with the board file abstracted to its track list.
The result is the dict `netclass -> (tolerance, nets)` as an association list
(keys are unique by construction). -/
def get_board_properties (tracks : List Track) :
    Except Unit (List (String × ℤ × List (String × ℤ))) :=
  buildProps tracks (uniqFirst (tracks.map Track.classname))

/-! ### One `Evaluate` pass of the `__main__` loop -/

/-- `oldprops[netclass]`: association-list lookup; `none` models the
`KeyError`. -/
def lookupSnap (ps : List (String × ℤ × List (String × ℤ))) (k : String) :
    Option (ℤ × List (String × ℤ)) :=
  match ps with
  | [] => none
  | p :: rest => if p.1 = k then some p.2 else lookupSnap rest k

/-- The `for (netclass, (tolerance, nets)) in props.items()` loop: a group
equal to its entry in the previous snapshot is skipped, otherwise
`test_netclass` runs; its output lines accumulate and `allmatches` is and-ed
with each returned verdict. -/
def evalLoop (old : List (String × ℤ × List (String × ℤ))) :
    List (String × ℤ × List (String × ℤ)) → Except Unit (List OutLine × Bool)
  | [] => .ok ([], true)
  | p :: rest =>
    if lookupSnap old p.1 = some p.2 then evalLoop old rest
    else
      match test_netclass p.1 p.2.1 p.2.2 with
      | .error e => .error e
      | .ok r =>
        match evalLoop old rest with
        | .error e => .error e
        | .ok (outs, all) => .ok (r.2.1 ++ outs, all && r.2.2)

/-- One `Evaluate` pass in continuous mode: run the loop against the previous
snapshot, then replace the snapshot with the newly computed mapping (the final
`oldprops = props`), returned as the last component. -/
def mainStep (old props : List (String × ℤ × List (String × ℤ))) :
    Except Unit ((List OutLine × Bool) × List (String × ℤ × List (String × ℤ))) :=
  match evalLoop old props with
  | .error e => .error e
  | .ok r => .ok (r, props)

/-- The printed lines a group would produce (empty for the impossible error
case). -/
def testOutput (p : String × ℤ × List (String × ℤ)) : List OutLine :=
  match test_netclass p.1 p.2.1 p.2.2 with
  | .ok r => r.2.1
  | .error _ => []

/-- The verdict a group would produce. -/
def testMeets (p : String × ℤ × List (String × ℤ)) : Bool :=
  match test_netclass p.1 p.2.1 p.2.2 with
  | .ok r => r.2.2
  | .error _ => true

/-- The conjunction of verdicts in the order the loop accumulates them. -/
def allList : List Bool → Bool
  | [] => true
  | m :: rest => allList rest && m

/-! ### The spec's group-naming convention, formalised from its words

These definitions follow the specification text, not the code: §6 "a group is
subject to length matching iff its name contains a case-sensitive marker `LM`
immediately followed by a decimal number (digits and at most one period), with
the marker's boundaries being either the string start/end or an underscore
separator."  They exist to be compared with `get_tolerance`. -/

/-- A nonempty run over the regex's character class `[0-9.]`. -/
def SpecNum (num : List Char) : Prop :=
  num ≠ [] ∧ ∀ c ∈ num, isNumChar c = true

/-- A decimal number per the spec: digits and at most one period (hence at
least one digit). -/
def SpecDecimal (num : List Char) : Prop :=
  SpecNum num ∧ num.count '.' ≤ 1 ∧ ∃ c ∈ num, c.isDigit = true

/-- The right boundary: end of string or an underscore. -/
def SpecBounded (rest : List Char) : Prop :=
  rest = [] ∨ rest.head? = some '_'

/-- `LM` followed by a `[0-9.]` run in right-boundary position, at the start
of `t`. -/
def SpecMarkerAt (t : List Char) : Prop :=
  ∃ num rest, t = 'L' :: 'M' :: (num ++ rest) ∧ SpecNum num ∧ SpecBounded rest

/-- As `SpecMarkerAt`, with a well-formed decimal numeral. -/
def SpecMarkerAtD (t : List Char) : Prop :=
  ∃ num rest, t = 'L' :: 'M' :: (num ++ rest) ∧ SpecDecimal num ∧ SpecBounded rest

/-- The label contains an `LM` marker followed by a `[0-9.]` run, in boundary
position (string start or after an underscore; right boundary underscore or
end). -/
def specMarkerLoose (s : List Char) : Prop :=
  SpecMarkerAt s ∨ ∃ pre rest, s = pre ++ '_' :: rest ∧ SpecMarkerAt rest

/-- The spec's convention verbatim: an `LM` marker followed by a decimal
number (digits, at most one period), in boundary position. -/
def specMarkerStrict (s : List Char) : Prop :=
  SpecMarkerAtD s ∨ ∃ pre rest, s = pre ++ '_' :: rest ∧ SpecMarkerAtD rest

/-! ### Helper lemmas: double rounding is exact on integers below `2^53` -/

lemma log2fuel_le : ∀ (f n k : ℕ), n < 2 ^ (k + 1) → log2fuel f n ≤ k := by
  intro f
  induction f with
  | zero => intro n k _; simp [log2fuel]
  | succ f ih =>
    intro n k h
    rw [log2fuel]
    split
    · exact Nat.zero_le _
    · rename_i hn
      have hn2 : 2 ≤ n := by omega
      have hk : 1 ≤ k := by
        by_contra hk0
        have : k = 0 := by omega
        subst this
        simp at h
        omega
      obtain ⟨k', rfl⟩ : ∃ k', k = k' + 1 := ⟨k - 1, by omega⟩
      have hdiv : n / 2 < 2 ^ (k' + 1) := by
        have : n < 2 ^ (k' + 1) * 2 := by
          calc n < 2 ^ (k' + 1 + 1) := h
          _ = 2 ^ (k' + 1) * 2 := by ring
        omega
      have := ih (n / 2) k' hdiv
      omega

lemma roundHalfEven_intCast (m : ℤ) : roundHalfEven ((m : ℤ) : ℚ) = m := by
  unfold roundHalfEven
  rw [Int.floor_intCast]
  norm_num

lemma pow2_mul_pow2_neg (a : ℤ) : pow2 a * pow2 (-a) = 1 := by
  rcases lt_trichotomy a 0 with h | h | h
  · rw [pow2, pow2, if_neg (by omega), if_pos (by omega)]
    have h2 : ((2 : ℤ) ^ (-a).toNat : ℚ) ≠ 0 := by positivity
    field_simp
  · subst h; simp [pow2]
  · rw [pow2, pow2, if_pos (by omega), if_neg (by omega)]
    have h2 : ((2 : ℤ) ^ a.toNat : ℚ) ≠ 0 := by positivity
    rw [neg_neg]
    field_simp

lemma floorLog2_intCast_le (n : ℤ) (h0 : 0 < n) (h : n < 2 ^ 53) :
    floorLog2 ((n : ℤ) : ℚ) ≤ 52 := by
  unfold floorLog2
  rw [Rat.num_intCast, Rat.den_intCast]
  have hno : n.natAbs < 2 ^ (52 + 1) := by
    have habs : (n.natAbs : ℤ) = n := Int.natAbs_of_nonneg (by omega)
    omega
  have h1 : log2fuel 1100 n.natAbs ≤ 52 := log2fuel_le 1100 n.natAbs 52 hno
  have h2 : log2fuel 1100 1 = 0 := rfl
  rw [h2]
  split <;> omega

lemma roundToDouble_int_small (n : ℤ) (h0 : 0 ≤ n) (h : n < 2 ^ 53) :
    roundToDouble ((n : ℤ) : ℚ) = ((n : ℤ) : ℚ) := by
  rcases eq_or_lt_of_le h0 with h0' | hpos
  · rw [← h0']; simp [roundToDouble]
  · have hq0 : ((n : ℤ) : ℚ) ≠ 0 := by
      exact_mod_cast (by omega : n ≠ 0)
    have hqpos : (0 : ℚ) < ((n : ℤ) : ℚ) := by exact_mod_cast hpos
    rw [roundToDouble, if_neg hq0, if_pos hqpos]
    have he : floorLog2 ((n : ℤ) : ℚ) ≤ 52 := floorLog2_intCast_le n hpos h
    obtain ⟨k, hk⟩ : ∃ k : ℕ, (k : ℤ) = 52 - floorLog2 ((n : ℤ) : ℚ) :=
      ⟨(52 - floorLog2 ((n : ℤ) : ℚ)).toNat, Int.toNat_of_nonneg (by omega)⟩
    have hpow : pow2 (52 - floorLog2 ((n : ℤ) : ℚ)) = ((2 ^ k : ℤ) : ℚ) := by
      rw [pow2, if_pos (by omega)]
      congr 2
      omega
    have hmul : ((n : ℤ) : ℚ) * pow2 (52 - floorLog2 ((n : ℤ) : ℚ)) =
        ((n * 2 ^ k : ℤ) : ℚ) := by
      rw [hpow]; push_cast; ring
    rw [hmul, roundHalfEven_intCast]
    have hneg : floorLog2 ((n : ℤ) : ℚ) - 52 = -(52 - floorLog2 ((n : ℤ) : ℚ)) := by
      ring
    calc ((n * 2 ^ k : ℤ) : ℚ) * pow2 (floorLog2 ((n : ℤ) : ℚ) - 52)
        = ((n : ℤ) : ℚ) * (pow2 (52 - floorLog2 ((n : ℤ) : ℚ)) *
            pow2 (-(52 - floorLog2 ((n : ℤ) : ℚ)))) := by
          rw [hpow, hneg]; push_cast; ring
      _ = ((n : ℤ) : ℚ) := by rw [pow2_mul_pow2_neg]; ring

lemma truncToInt_intCast (m : ℤ) : truncToInt ((m : ℤ) : ℚ) = m := by
  unfold truncToInt
  split
  · exact Int.floor_intCast m
  · have : (-((m : ℤ) : ℚ)) = (((-m : ℤ)) : ℚ) := by push_cast; ring
    rw [this, Int.floor_intCast]
    ring

lemma pyFloatSum_go (ls : List ℤ) : ∀ acc : ℤ, 0 ≤ acc → (∀ l ∈ ls, 0 ≤ l) →
    acc + ls.sum < 2 ^ 53 →
    ls.foldl (fun a l => roundToDouble (a + roundToDouble ((l : ℤ) : ℚ)))
        ((acc : ℤ) : ℚ) =
      ((acc + ls.sum : ℤ) : ℚ) := by
  induction ls with
  | nil => intro acc _ _ _; simp
  | cons x t ih =>
    intro acc hacc hnn hlt
    have hx : 0 ≤ x := hnn x (List.mem_cons_self x t)
    have htnn : ∀ l ∈ t, 0 ≤ l := fun l hl => hnn l (List.mem_cons_of_mem x hl)
    have htsum : 0 ≤ t.sum := List.sum_nonneg htnn
    rw [List.sum_cons] at hlt
    have hx53 : x < 2 ^ 53 := by omega
    rw [List.foldl_cons, roundToDouble_int_small x hx hx53]
    have hcast : ((acc : ℤ) : ℚ) + ((x : ℤ) : ℚ) = ((acc + x : ℤ) : ℚ) := by
      push_cast; ring
    rw [hcast, roundToDouble_int_small (acc + x) (by omega) (by omega)]
    have := ih (acc + x) (by omega) htnn (by omega)
    rw [this]
    congr 1
    rw [List.sum_cons]
    ring

lemma pyFloatSum_exact (ls : List ℤ) (h1 : ∀ l ∈ ls, 0 ≤ l)
    (h2 : ls.sum < 2 ^ 53) : pyFloatSum ls = ((ls.sum : ℤ) : ℚ) := by
  unfold pyFloatSum
  have h := pyFloatSum_go ls 0 le_rfl h1 (by omega)
  have h0 : (((0 : ℤ)) : ℚ) = (0 : ℚ) := by norm_num
  rw [h0] at h
  simp only [zero_add] at h
  exact h

/-! ### Helper lemmas: `min`/`max` folds under permutation and on nonempty
lists -/

lemma foldl_optStep_perm (g : ℤ → ℤ → ℤ)
    (hstep : ∀ o x y, optStep g (optStep g o x) y = optStep g (optStep g o y) x)
    {l₁ l₂ : List ℤ} (p : l₁.Perm l₂) :
    ∀ o, l₁.foldl (optStep g) o = l₂.foldl (optStep g) o := by
  induction p with
  | nil => intro o; rfl
  | cons x _ ih => intro o; simp only [List.foldl_cons]; exact ih _
  | swap x y l => intro o; simp only [List.foldl_cons]; rw [hstep]
  | trans _ _ ih1 ih2 => intro o; rw [ih1, ih2]

lemma optStep_min_swap :
    ∀ o x y, optStep min (optStep min o x) y = optStep min (optStep min o y) x := by
  intro o x y
  cases o with
  | none => simp only [optStep]; rw [min_comm]
  | some m => simp only [optStep]; rw [min_right_comm]

lemma optStep_max_swap :
    ∀ o x y, optStep max (optStep max o x) y = optStep max (optStep max o y) x := by
  intro o x y
  cases o with
  | none => simp only [optStep]; rw [max_comm]
  | some m =>
    simp only [optStep]
    rw [max_assoc, max_comm x y, ← max_assoc]

lemma listMin_perm {l₁ l₂ : List ℤ} (p : l₁.Perm l₂) : listMin l₁ = listMin l₂ :=
  foldl_optStep_perm min optStep_min_swap p none

lemma listMax_perm {l₁ l₂ : List ℤ} (p : l₁.Perm l₂) : listMax l₁ = listMax l₂ :=
  foldl_optStep_perm max optStep_max_swap p none

lemma foldl_optStep_some (g : ℤ → ℤ → ℤ) :
    ∀ (t : List ℤ) (m : ℤ), ∃ r, t.foldl (optStep g) (some m) = some r := by
  intro t
  induction t with
  | nil => intro m; exact ⟨m, rfl⟩
  | cons x t ih =>
    intro m
    simp only [List.foldl_cons]
    exact ih (g m x)

lemma listMin_some_of_ne_nil (l : List ℤ) (h : l ≠ []) :
    ∃ r, listMin l = some r := by
  cases l with
  | nil => exact absurd rfl h
  | cons x t =>
    unfold listMin
    simp only [List.foldl_cons]
    exact foldl_optStep_some min t x

lemma listMax_some_of_ne_nil (l : List ℤ) (h : l ≠ []) :
    ∃ r, listMax l = some r := by
  cases l with
  | nil => exact absurd rfl h
  | cons x t =>
    unfold listMax
    simp only [List.foldl_cons]
    exact foldl_optStep_some max t x

lemma median_some_of_ne_nil (x : List ℤ) (h : x ≠ []) :
    ∃ r, median x = some r := by
  have hlen : 0 < x.length := List.length_pos.mpr h
  unfold median
  by_cases hpar : x.length % 2 ≠ 0
  · rw [if_pos hpar]
    have hidx : x.length / 2 < (List.insertionSort (· ≤ ·) x).length := by
      rw [List.length_insertionSort]; omega
    rw [List.get?_eq_get hidx]
    exact ⟨_, rfl⟩
  · rw [if_neg hpar]
    push_neg at hpar
    have h1 : x.length / 2 < (List.insertionSort (· ≤ ·) x).length := by
      rw [List.length_insertionSort]; omega
    have h2 : x.length / 2 - 1 < (List.insertionSort (· ≤ ·) x).length := by
      rw [List.length_insertionSort]; omega
    rw [List.get?_eq_get h1, List.get?_eq_get h2]
    exact ⟨_, rfl⟩

lemma sort_map_ne_nil (nets : List (String × ℤ)) (h : nets ≠ []) :
    (List.insertionSort pairLe nets).map Prod.snd ≠ [] := by
  intro hmap
  rw [List.map_eq_nil_iff] at hmap
  have := List.length_insertionSort pairLe nets
  rw [hmap] at this
  simp at this
  exact h (List.length_eq_zero.mp this.symm)

lemma test_netclass_ok (nc : String) (tol : ℤ) (nets : List (String × ℤ))
    (h : nets ≠ []) :
    ∃ st outs m, test_netclass nc tol nets = .ok (st, outs, m) := by
  have hne := sort_map_ne_nil nets h
  obtain ⟨mn, hmn⟩ := listMin_some_of_ne_nil _ hne
  obtain ⟨mx, hmx⟩ := listMax_some_of_ne_nil _ hne
  obtain ⟨md, hmd⟩ := median_some_of_ne_nil _ hne
  unfold test_netclass
  rw [hmn, hmx, hmd]
  exact ⟨_, _, _, rfl⟩

/-! ### Helper lemmas: the regex search against the spec's naming convention -/

lemma takeWhile_append_bounded (num rest : List Char)
    (h1 : ∀ c ∈ num, isNumChar c = true)
    (h2 : rest = [] ∨ rest.head? = some '_') :
    (num ++ rest).takeWhile isNumChar = num ∧
      (num ++ rest).dropWhile isNumChar = rest := by
  induction num with
  | nil =>
    simp only [List.nil_append]
    rcases h2 with rfl | hh
    · exact ⟨rfl, rfl⟩
    · cases rest with
      | nil => exact ⟨rfl, rfl⟩
      | cons c r =>
        simp only [List.head?_cons, Option.some.injEq] at hh
        subst hh
        simp [List.takeWhile_cons, List.dropWhile_cons, isNumChar]
  | cons c num ih =>
    have hc : isNumChar c = true := h1 c (List.mem_cons_self c num)
    have ihh := ih (fun d hd => h1 d (List.mem_cons_of_mem c hd))
    simp only [List.cons_append, List.takeWhile_cons, List.dropWhile_cons, hc,
      if_true]
    exact ⟨by rw [ihh.1], by rw [ihh.2]⟩

lemma specMarkerAt_of_matchHere (t num : List Char)
    (h : matchHere t = some num) : SpecMarkerAt t := by
  cases t with
  | nil => exact absurd h (by simp [matchHere])
  | cons c1 t1 =>
    cases t1 with
    | nil => exact absurd h (by simp [matchHere])
    | cons c2 rest =>
      simp only [matchHere] at h
      by_cases hLM : c1 = 'L' ∧ c2 = 'M'
      · rw [if_pos hLM] at h
        by_cases hcond : rest.takeWhile isNumChar ≠ [] ∧
            (rest.dropWhile isNumChar = [] ∨
              (rest.dropWhile isNumChar).head? = some '_')
        · rw [if_pos hcond] at h
          obtain ⟨hL, hM⟩ := hLM
          subst hL; subst hM
          obtain ⟨hne, hb⟩ := hcond
          injection h with hnum
          refine ⟨num, rest.dropWhile isNumChar, ?_, ⟨?_, ?_⟩, hb⟩
          · rw [← hnum, List.takeWhile_append_dropWhile]
          · rw [← hnum]; exact hne
          · intro c hcm
            rw [← hnum] at hcm
            exact List.mem_takeWhile_imp hcm
        · rw [if_neg hcond] at h; exact absurd h (by simp)
      · rw [if_neg hLM] at h; exact absurd h (by simp)

lemma matchHere_of_specMarkerAt (t : List Char) (h : SpecMarkerAt t) :
    ∃ num, matchHere t = some num := by
  obtain ⟨num, rest, rfl, ⟨hne, hall⟩, hb⟩ := h
  obtain ⟨htk, hdr⟩ := takeWhile_append_bounded num rest hall hb
  simp only [matchHere, and_self, if_true]
  rw [htk, hdr]
  exact ⟨num, if_pos ⟨hne, hb⟩⟩

lemma searchAux_some_iff (s : List Char) :
    (∃ n, searchAux s = some n) ↔
      ∃ pre rest, s = pre ++ '_' :: rest ∧ SpecMarkerAt rest := by
  induction s with
  | nil =>
    constructor
    · rintro ⟨n, h⟩; exact absurd h (by simp [searchAux])
    · rintro ⟨pre, rest, h, -⟩
      exact absurd h.symm (by simp)
  | cons c cs ih =>
    by_cases hc : c = '_'
    · subst hc
      simp only [searchAux, if_true]
      cases hm : matchHere cs with
      | some n =>
        refine iff_of_true ⟨n, rfl⟩ ⟨[], cs, rfl, specMarkerAt_of_matchHere cs n hm⟩
      | none =>
        rw [ih]
        constructor
        · rintro ⟨pre, rest, rfl, hM⟩
          exact ⟨'_' :: pre, rest, rfl, hM⟩
        · rintro ⟨pre, rest, heq, hM⟩
          cases pre with
          | nil =>
            simp only [List.nil_append, List.cons.injEq] at heq
            obtain ⟨-, rfl⟩ := heq
            obtain ⟨n, hn⟩ := matchHere_of_specMarkerAt _ hM
            rw [hn] at hm
            exact absurd hm (by simp)
          | cons p ps =>
            simp only [List.cons_append, List.cons.injEq] at heq
            exact ⟨ps, rest, heq.2, hM⟩
    · simp only [searchAux]
      rw [if_neg hc]
      rw [ih]
      constructor
      · rintro ⟨pre, rest, rfl, hM⟩
        exact ⟨c :: pre, rest, rfl, hM⟩
      · rintro ⟨pre, rest, heq, hM⟩
        cases pre with
        | nil =>
          simp only [List.nil_append, List.cons.injEq] at heq
          exact absurd heq.1 hc
        | cons p ps =>
          simp only [List.cons_append, List.cons.injEq] at heq
          exact ⟨ps, rest, heq.2, hM⟩

lemma searchLM_some_iff (s : List Char) :
    (∃ n, searchLM s = some n) ↔ specMarkerLoose s := by
  unfold searchLM specMarkerLoose
  cases hm : matchHere s with
  | some n =>
    exact iff_of_true ⟨n, rfl⟩ (Or.inl (specMarkerAt_of_matchHere s n hm))
  | none =>
    rw [searchAux_some_iff]
    constructor
    · exact fun h => Or.inr h
    · rintro (hM | h)
      · obtain ⟨n, hn⟩ := matchHere_of_specMarkerAt s hM
        rw [hn] at hm
        exact absurd hm (by simp)
      · exact h

lemma searchLM_none_iff (s : List Char) :
    searchLM s = none ↔ ¬ specMarkerLoose s := by
  rw [← searchLM_some_iff]
  cases searchLM s <;> simp

/-! ### Helper lemmas: `get_tolerance` outcomes and `get_board_properties`
membership -/

lemma get_tolerance_none_iff (l : String) :
    get_tolerance l = .ok none ↔ ¬ specMarkerLoose l.data := by
  unfold get_tolerance
  cases hs : searchLM l.data with
  | none =>
    exact iff_of_true rfl ((searchLM_none_iff l.data).mp hs)
  | some num =>
    have hloose : specMarkerLoose l.data := (searchLM_some_iff l.data).mp ⟨num, hs⟩
    cases hp : parseDecimal num with
    | none => exact iff_of_false (by simp [hp]) (by simp [hloose])
    | some q => exact iff_of_false (by simp [hp]) (by simp [hloose])

lemma parseDecimal_none_of_two_dots (l : List Char) (h : 2 ≤ l.count '.') :
    parseDecimal l = none := by
  unfold parseDecimal
  rw [if_neg (by omega), if_neg (by omega)]

lemma parseDecimal_dot_none : parseDecimal ['.'] = none := by decide

lemma buildProps_mem (tracks : List Track) :
    ∀ (ncs : List String) (props : List (String × ℤ × List (String × ℤ))),
      buildProps tracks ncs = .ok props →
      ∀ nc tol nets, (nc, tol, nets) ∈ props →
        get_tolerance nc = .ok (some tol) ∧ nets = netsFor tracks nc := by
  intro ncs
  induction ncs with
  | nil =>
    intro props h nc tol nets hmem
    simp only [buildProps] at h
    injection h with h
    rw [← h] at hmem
    exact absurd hmem (by simp)
  | cons c rest ih =>
    intro props h nc tol nets hmem
    simp only [buildProps] at h
    cases hg : get_tolerance c with
    | error e => rw [hg] at h; exact absurd h (by simp)
    | ok o =>
      cases o with
      | none => rw [hg] at h; exact ih props h nc tol nets hmem
      | some t =>
        rw [hg] at h
        cases hr : buildProps tracks rest with
        | error e => rw [hr] at h; exact absurd h (by simp)
        | ok r =>
          rw [hr] at h
          injection h with h
          rw [← h] at hmem
          rcases List.mem_cons.mp hmem with heq | hmem'
          · injection heq with h1 h2
            injection h2 with h2a h2b
            subst h1; subst h2a; subst h2b
            exact ⟨hg, rfl⟩
          · exact ih r hr nc tol nets hmem'

lemma get_board_properties_mem (tracks : List Track)
    (props : List (String × ℤ × List (String × ℤ)))
    (h : get_board_properties tracks = .ok props)
    (nc : String) (tol : ℤ) (nets : List (String × ℤ))
    (hmem : (nc, tol, nets) ∈ props) :
    get_tolerance nc = .ok (some tol) ∧ nets = netsFor tracks nc :=
  buildProps_mem tracks _ props h nc tol nets hmem

lemma map_fst_pairing {α β : Type} (f : α → β) (l : List α) :
    (l.map (fun n => (n, f n))).map Prod.fst = l := by
  rw [List.map_map]
  have h : (Prod.fst ∘ fun n => (n, f n)) = fun n => n := rfl
  rw [h]
  exact List.map_id l

lemma netsFor_map_fst (tracks : List Track) (nc : String) :
    (netsFor tracks nc).map Prod.fst =
      List.insertionSort (· ≤ ·)
        (uniqFirst ((tracks.filter (fun t => t.classname = nc)).map Track.netname)) := by
  unfold netsFor
  exact map_fst_pairing _ _

/-! ### Helper lemma: one pass of the evaluate loop -/

lemma evalLoop_eq (old : List (String × ℤ × List (String × ℤ))) :
    ∀ props : List (String × ℤ × List (String × ℤ)),
      (∀ p ∈ props, p.2.2 ≠ []) →
      evalLoop old props = .ok
        (((props.filter
            (fun p => !decide (lookupSnap old p.1 = some p.2))).map testOutput).flatten,
          allList ((props.filter
            (fun p => !decide (lookupSnap old p.1 = some p.2))).map testMeets)) := by
  intro props
  induction props with
  | nil => intro _; rfl
  | cons p rest ih =>
    intro h
    have hp : p.2.2 ≠ [] := h p (List.mem_cons_self p rest)
    have hrest : ∀ q ∈ rest, q.2.2 ≠ [] := fun q hq => h q (List.mem_cons_of_mem p hq)
    by_cases hskip : lookupSnap old p.1 = some p.2
    · rw [evalLoop, if_pos hskip]
      rw [List.filter_cons_of_neg (by simp [hskip])]
      exact ih hrest
    · rw [evalLoop, if_neg hskip]
      obtain ⟨st, outs, m, heq⟩ := test_netclass_ok p.1 p.2.1 p.2.2 hp
      rw [heq, ih hrest]
      rw [List.filter_cons_of_pos (by simp [hskip])]
      simp only [List.map_cons, List.flatten_cons, allList]
      have ho : testOutput p = outs := by unfold testOutput; rw [heq]
      have hm : testMeets p = m := by unfold testMeets; rw [heq]
      rw [ho, hm]

/-! ### Claim theorems -/

/-- C10: for every tolerance, calling `test_netclass` with an empty nets list
raises an error (Python's `min()` of an empty sequence) before printing any
verdict; the model returns `.error ()` with no output, so an empty group is
neither a vacuous pass nor a silent skip. -/
theorem C10_empty_raises : ∀ (nc : String) (tol : ℤ),
    test_netclass nc tol [] = .error () := by
  intro nc tol
  rfl

/-- C4: for every non-empty nets list (witnessed by `listMin`/`listMax`
returning values) and every tolerance, `test_netclass` returns the verdict
`decide (max - min < tolerance)`: "meets" exactly when the variance is
strictly below the tolerance; in particular, when the variance equals the
tolerance the verdict is "fails". -/
theorem C4_meets_iff :
    ∀ (nc : String) (tol : ℤ) (nets : List (String × ℤ)) (mn mx : ℤ),
      listMin (nets.map Prod.snd) = some mn →
      listMax (nets.map Prod.snd) = some mx →
      (test_netclass nc tol nets).toOption.map (fun r => r.2.2) =
          some (decide (mx - mn < tol)) ∧
        (mx - mn = tol →
          (test_netclass nc tol nets).toOption.map (fun r => r.2.2) = some false) := by
  intro nc tol nets mn mx hmn hmx
  have hne : nets ≠ [] := by
    intro h
    rw [h] at hmn
    exact absurd hmn (by simp [listMin])
  have hperm : ((List.insertionSort pairLe nets).map Prod.snd).Perm
      (nets.map Prod.snd) := (List.perm_insertionSort pairLe nets).map Prod.snd
  have hmn' : listMin ((List.insertionSort pairLe nets).map Prod.snd) = some mn := by
    rw [listMin_perm hperm]; exact hmn
  have hmx' : listMax ((List.insertionSort pairLe nets).map Prod.snd) = some mx := by
    rw [listMax_perm hperm]; exact hmx
  obtain ⟨md, hmd⟩ := median_some_of_ne_nil _ (sort_map_ne_nil nets hne)
  have hmain : (test_netclass nc tol nets).toOption.map (fun r => r.2.2) =
      some (decide (mx - mn < tol)) := by
    unfold test_netclass
    rw [hmn', hmx', hmd]
    rfl
  refine ⟨hmain, fun heq => ?_⟩
  rw [hmain, heq]
  simp

/-- Witness for C4 at a concrete group: variance 2 against tolerance 5. -/
theorem C4_meets_iff_witness :
    listMin ([("A", (10 : ℤ)), ("B", 12)].map Prod.snd) = some 10 ∧
      listMax ([("A", (10 : ℤ)), ("B", 12)].map Prod.snd) = some 12 ∧
      (test_netclass "DATABUS_LM1.2" 5 [("A", 10), ("B", 12)]).toOption.map
          (fun r => r.2.2) = some (decide ((12 : ℤ) - 10 < 5)) :=
  ⟨by decide, by decide,
    (C4_meets_iff "DATABUS_LM1.2" 5 [("A", 10), ("B", 12)] 10 12
      (by decide) (by decide)).1⟩

/-- C1 counterexample: the claim asserts a single-net group is reported
"meets" for every tolerance the parser can produce, including tolerance 0
parsed from "X_LM0".  The code computes `meets = (0 < 0) = False`: with
tolerance 0 a single-net group is reported FAILS, refuting the claim at this
input. -/
theorem C1_counterexample :
    get_tolerance "X_LM0" = .ok (some 0) ∧
      test_netclass "X_LM0" 0 [("A", 5)] =
        .ok ([("A", 5)],
          [OutLine.summary "X_LM0" false 0 0, OutLine.netline "A" 5 5],
          false) := by
  constructor
  · with_unfolding_all rfl
  · with_unfolding_all rfl

/-- C1 amended: for a single-net group the variance is always 0, and the
verdict is "meets" for every positive tolerance (the parser only produces
nonnegative tolerances, so 0 is the only parser-producible value on which the
claim fails). -/
theorem C1_single_net_amended :
    ∀ (nc n : String) (L tol : ℤ), 0 < tol →
      test_netclass nc tol [(n, L)] =
        .ok ([(n, L)],
          [OutLine.summary nc true tol 0, OutLine.netline n L (L : ℚ)],
          true) := by
  intro nc n L tol h
  have key : test_netclass nc tol [(n, L)] =
      .ok ([(n, L)],
        [OutLine.summary nc (decide (L - L < tol)) tol (L - L),
         OutLine.netline n L (L : ℚ)],
        decide (L - L < tol)) := by with_unfolding_all rfl
  have hd : decide (L - L < tol) = true := decide_eq_true (by rw [sub_self]; exact h)
  rw [key, hd, sub_self]

/-- Witness for C1 amended at tolerance 1 200 000 nm (from "DATABUS_LM1.2"). -/
theorem C1_single_net_amended_witness :
    (0 : ℤ) < 1200000 ∧
      test_netclass "DATABUS_LM1.2" 1200000 [("A", 5)] =
        .ok ([("A", 5)],
          [OutLine.summary "DATABUS_LM1.2" true 1200000 0,
           OutLine.netline "A" 5 5],
          true) :=
  ⟨by decide, C1_single_net_amended "DATABUS_LM1.2" "A" 5 1200000 (by decide)⟩

/-- C2 counterexample: the claim asserts the parsed tolerance is exactly
`T * 10^6` nanometres for every decimal numeral `T`.  For "LM8.2"
(exact value 41/5 mm) the double-precision product `8.2 * 1e6` is
`8200000 - 2^-30`, and `int()` truncates it to 8 199 999, one short of the
exact 8 200 000. -/
theorem C2_counterexample :
    parseDecimal ['8', '.', '2'] = some (41 / 5) ∧
      get_tolerance "LM8.2" = .ok (some 8199999) ∧
      ((8199999 : ℚ) ≠ (41 / 5) * 1000000) := by
  refine ⟨by with_unfolding_all rfl, by with_unfolding_all rfl, by norm_num⟩

/-- C2 amended: the parsed tolerance is the double-precision value of
`T * 10^6` truncated to an integer; for `T = 1.2` — in both label forms the
claim names — this equals the exact 1 200 000 nm, but in general it can fall
1 nm short (see the counterexample). -/
theorem C2_roundtrip_examples :
    get_tolerance "LM1.2" = .ok (some 1200000) ∧
      get_tolerance "X_LM1.2_Y" = .ok (some 1200000) := by
  exact ⟨by with_unfolding_all rfl, by with_unfolding_all rfl⟩

/-- C5 counterexample: the claim asserts the even-count median is the exact
arithmetic mean of the two central elements.  The code computes
`(a + b) / 2.0` in double precision: for `[0, 2^53 + 1]` the sum rounds to
`2^53` and the returned median is `2^52`, not the exact mean `(2^53 + 1)/2`. -/
theorem C5_counterexample :
    median [0, 9007199254740993] = some ((4503599627370496 : ℚ)) ∧
      ((4503599627370496 : ℚ)) ≠ ((9007199254740993 : ℚ) + (0 : ℚ)) / 2 := by
  refine ⟨by with_unfolding_all rfl, by norm_num⟩

/-- C5 amended: for an odd count the median is the middle element of the
sorted list (exact); for an even count it is the double-rounded mean of the
two central sorted elements, which equals the exact arithmetic mean whenever
the sum of those two elements is nonnegative and below `2^53` (always the
case for physical track lengths). -/
theorem C5_median_amended :
    ∀ (x : List ℤ) (a b : ℤ),
      (x.length % 2 = 1 →
        median x =
          ((List.insertionSort (· ≤ ·) x).get? (x.length / 2)).map
            (fun m => (m : ℚ))) ∧
      (x.length % 2 = 0 →
        (List.insertionSort (· ≤ ·) x).get? (x.length / 2) = some a →
        (List.insertionSort (· ≤ ·) x).get? (x.length / 2 - 1) = some b →
        0 ≤ a + b → a + b < 2 ^ 53 →
        median x = some (((a : ℚ) + (b : ℚ)) / 2)) := by
  intro x a b
  constructor
  · intro hodd
    unfold median
    rw [if_pos (by omega)]
  · intro heven ha hb hnn hlt
    unfold median
    rw [if_neg (by omega), ha, hb]
    show some (roundToDouble ((a : ℚ) + (b : ℚ)) / 2) =
      some (((a : ℚ) + (b : ℚ)) / 2)
    have hcast : (a : ℚ) + (b : ℚ) = ((a + b : ℤ) : ℚ) := by push_cast; ring
    rw [hcast, roundToDouble_int_small (a + b) hnn hlt]

/-- Witness for C5 amended: even case on `[1, 3]` (median 2) and odd case on
`[7]`. -/
theorem C5_median_amended_witness :
    median [(1 : ℤ), 3] = some (((3 : ℚ) + (1 : ℚ)) / 2) ∧
      median [(7 : ℤ)] =
        ((List.insertionSort (· ≤ ·) [(7 : ℤ)]).get? ([(7 : ℤ)].length / 2)).map
          (fun m => (m : ℚ)) :=
  ⟨(C5_median_amended [1, 3] 3 1).2 (by decide) (by decide) (by decide)
      (by decide) (by decide),
    (C5_median_amended [7] 0 0).1 (by decide)⟩

/-- C7: whenever the regex detects a marker (leftmost match) whose numeral is
malformed — two or more periods, or the bare period — `get_tolerance` raises
(Python `float()`'s `ValueError` propagates) instead of returning `None` and
silently skipping the group. -/
theorem C7_malformed_raises :
    ∀ (l : String) (num : List Char),
      searchLM l.data = some num →
      (2 ≤ num.count '.' ∨ num = ['.']) →
      get_tolerance l = .error () := by
  intro l num hs hm
  have hp : parseDecimal num = none := by
    rcases hm with hm | rfl
    · exact parseDecimal_none_of_two_dots num hm
    · exact parseDecimal_dot_none
  unfold get_tolerance
  rw [hs]
  simp [hp]

/-- Witness for C7 at the claim's own example "BUS_LM1.2.3". -/
theorem C7_malformed_raises_witness :
    searchLM ("BUS_LM1.2.3" : String).data = some ['1', '.', '2', '.', '3'] ∧
      get_tolerance "BUS_LM1.2.3" = .error () :=
  ⟨by with_unfolding_all rfl,
    C7_malformed_raises "BUS_LM1.2.3" ['1', '.', '2', '.', '3'] (by decide)
      (Or.inl (by decide))⟩

/-- C9 counterexample: the claim asserts the caller's nets list is left
unmodified for every input.  `test_netclass` begins with the in-place
`nets.sort()`: called on the unsorted `[("b",1), ("a",2)]` the caller's list
ends up `[("a",2), ("b",1)]`, different from what was passed in. -/
theorem C9_counterexample :
    test_netclass "G_LM1" 1000000 [("b", 1), ("a", 2)] =
      .ok ([("a", 2), ("b", 1)],
        [OutLine.summary "G_LM1" true 1000000 1,
         OutLine.netline "a" 2 (3 / 2), OutLine.netline "b" 1 (3 / 2)],
        true) ∧
      ([("a", 2), ("b", 1)] : List (String × ℤ)) ≠ [("b", 1), ("a", 2)] := by
  refine ⟨by with_unfolding_all rfl, by decide⟩

/-- C9 amended: the only mutation `test_netclass` performs is the in-place
sort of the nets list (all other effects are the printed lines, returned here
as values).  Whenever the list is already sorted in Python's tuple order —
which holds for every list `get_board_properties` produces — the caller's
list is returned unchanged. -/
theorem C9_sorted_frame :
    ∀ (nc : String) (tol : ℤ) (nets st : List (String × ℤ))
      (outs : List OutLine) (m : Bool),
      List.Sorted pairLe nets →
      test_netclass nc tol nets = .ok (st, outs, m) → st = nets := by
  intro nc tol nets st outs m hsort heq
  have hss : List.insertionSort pairLe nets = nets := hsort.insertionSort_eq
  by_cases hne : nets = []
  · rw [hne] at heq
    rw [show test_netclass nc tol [] = .error () from rfl] at heq
    exact absurd heq (by simp)
  · obtain ⟨mn, hmn⟩ := listMin_some_of_ne_nil _ (sort_map_ne_nil nets hne)
    obtain ⟨mx, hmx⟩ := listMax_some_of_ne_nil _ (sort_map_ne_nil nets hne)
    obtain ⟨md, hmd⟩ := median_some_of_ne_nil _ (sort_map_ne_nil nets hne)
    unfold test_netclass at heq
    rw [hmn, hmx, hmd] at heq
    injection heq with htup
    have hst : List.insertionSort pairLe nets = st := congrArg Prod.fst htup
    rw [← hst]
    exact hss

/-- Witness for C9 amended on a sorted two-net list. -/
theorem C9_sorted_frame_witness :
    List.Sorted pairLe [("a", (1 : ℤ)), ("b", 2)] ∧
      ([("a", (1 : ℤ)), ("b", 2)] : List (String × ℤ)) = [("a", 1), ("b", 2)] :=
  ⟨of_decide_eq_true (by with_unfolding_all rfl),
    C9_sorted_frame "G_LM1" 7 [("a", 1), ("b", 2)] [("a", 1), ("b", 2)]
      [OutLine.summary "G_LM1" true 7 1,
       OutLine.netline "a" 1 (3 / 2), OutLine.netline "b" 2 (3 / 2)] true
      (of_decide_eq_true (by with_unfolding_all rfl))
      (by with_unfolding_all rfl)⟩

/-- C8: one `Evaluate` pass of the continuous-mode loop runs `test_netclass`
exactly on the groups whose `(tolerance, nets)` value differs from the
previous snapshot's entry or are new (the filter below); the printed lines
are the concatenation of those groups' outputs in order — unchanged groups
contribute nothing — and the snapshot handed to the next iteration is the
newly computed `props`.  The nonemptiness hypothesis holds for every group
`get_board_properties` produces (each recorded class has at least one
track). -/
theorem C8_changed_groups_only :
    ∀ (old props : List (String × ℤ × List (String × ℤ))),
      (∀ p ∈ props, p.2.2 ≠ []) →
      mainStep old props = .ok
        ((((props.filter
            (fun p => !decide (lookupSnap old p.1 = some p.2))).map
              testOutput).flatten,
          allList ((props.filter
            (fun p => !decide (lookupSnap old p.1 = some p.2))).map testMeets)),
          props) := by
  intro old props h
  unfold mainStep
  rw [evalLoop_eq old props h]

/-- Witness for C8: an empty previous snapshot forces the single (new) group
to be evaluated. -/
theorem C8_changed_groups_only_witness :
    (∀ p ∈ [("G_LM1", (5 : ℤ), [("A", (1 : ℤ))])], p.2.2 ≠ []) ∧
      mainStep [] [("G_LM1", 5, [("A", 1)])] = .ok
        (((([("G_LM1", (5 : ℤ), [("A", (1 : ℤ))])].filter
            (fun p => !decide (lookupSnap [] p.1 = some p.2))).map
              testOutput).flatten,
          allList (([("G_LM1", (5 : ℤ), [("A", (1 : ℤ))])].filter
            (fun p => !decide (lookupSnap [] p.1 = some p.2))).map testMeets)),
          [("G_LM1", 5, [("A", 1)])]) :=
  ⟨by decide, C8_changed_groups_only [] [("G_LM1", 5, [("A", 1)])] (by decide)⟩

/-- C3 counterexample: the claim asserts every recorded net total equals the
exact integer sum of that net's segment lengths, with no floating-point
precision loss.  The code computes `int(sum(...))` over Python floats: for
three segments of lengths `2^52`, `2^52` and `1` the double sum rounds to
`2^53` and the recorded total is `9007199254740992`, not the exact
`2^53 + 1`. -/
theorem C3_counterexample :
    get_board_properties
        [⟨"N", "G_LM1", 2 ^ 52⟩, ⟨"N", "G_LM1", 2 ^ 52⟩, ⟨"N", "G_LM1", 1⟩] =
      .ok [("G_LM1", 1000000, [("N", 9007199254740992)])] ∧
      (9007199254740992 : ℤ) ≠ 2 ^ 52 + 2 ^ 52 + 1 := by
  refine ⟨by with_unfolding_all rfl, by decide⟩

/-- C3 amended: every group's `(net name, total)` pairs are listed sorted by
net name, and each recorded total is the double-precision sum of the net's
segment lengths truncated to an integer — which equals the exact integer sum
whenever the lengths are nonnegative and their sum stays below `2^53`
(always the case for physical boards). -/
theorem C3_aggregate_amended :
    ∀ (tracks : List Track) (props : List (String × ℤ × List (String × ℤ)))
      (nc : String) (tol : ℤ) (nets : List (String × ℤ)),
      get_board_properties tracks = .ok props →
      (nc, tol, nets) ∈ props →
      List.Sorted (· ≤ ·) (nets.map Prod.fst) ∧
      ∀ n L, (n, L) ∈ nets →
        L = truncToInt (pyFloatSum
          (((tracks.filter (fun t => t.classname = nc)).filter
              (fun t => t.netname = n)).map Track.length)) ∧
        ((∀ t ∈ tracks, 0 ≤ t.length) →
          (((tracks.filter (fun t => t.classname = nc)).filter
              (fun t => t.netname = n)).map Track.length).sum < 2 ^ 53 →
          L = (((tracks.filter (fun t => t.classname = nc)).filter
              (fun t => t.netname = n)).map Track.length).sum) := by
  intro tracks props nc tol nets hp hmem
  obtain ⟨-, hnets⟩ := get_board_properties_mem tracks props hp nc tol nets hmem
  subst hnets
  constructor
  · rw [netsFor_map_fst]
    exact List.sorted_insertionSort _ _
  · intro n L hmemn
    unfold netsFor at hmemn
    rw [List.mem_map] at hmemn
    obtain ⟨n0, hn0, heqp⟩ := hmemn
    injection heqp with h1 h2
    subst h1
    constructor
    · exact h2.symm
    · intro hnn hsum
      have hall : ∀ l ∈ (((tracks.filter (fun t => t.classname = nc)).filter
          (fun t => t.netname = n0)).map Track.length), 0 ≤ l := by
        intro l hl
        rw [List.mem_map] at hl
        obtain ⟨t, ht, rfl⟩ := hl
        exact hnn t (List.mem_of_mem_filter (List.mem_of_mem_filter ht))
      rw [← h2, pyFloatSum_exact _ hall hsum, truncToInt_intCast]

/-- Witness for C3 amended on a concrete board: group "G_LM1" with nets
"A" (segments 4 and 5 nm) and "B" (3 nm); the recorded total for "A" is the
exact sum 9, and the pairs come out sorted. -/
theorem C3_aggregate_amended_witness :
    List.Sorted (· ≤ ·) (([("A", (9 : ℤ)), ("B", 3)].map Prod.fst)) ∧
      (9 : ℤ) = ((([⟨"B", "G_LM1", 3⟩, ⟨"A", "G_LM1", 4⟩,
            ⟨"A", "G_LM1", 5⟩].filter
              (fun t : Track => t.classname = "G_LM1")).filter
            (fun t : Track => t.netname = "A")).map Track.length).sum := by
  have h := C3_aggregate_amended
    [⟨"B", "G_LM1", 3⟩, ⟨"A", "G_LM1", 4⟩, ⟨"A", "G_LM1", 5⟩]
    [("G_LM1", 1000000, [("A", 9), ("B", 3)])]
    "G_LM1" 1000000 [("A", 9), ("B", 3)]
    (by with_unfolding_all rfl) (by decide)
  refine ⟨h.1, ?_⟩
  exact (h.2 "A" 9 (by decide)).2 (by decide) (by decide)

/-- C6 counterexample: the claim asserts `get_tolerance` returns a tolerance
exactly when the label contains an `LM` marker followed by a decimal number
in boundary position.  "A_LM1.2.3_LM5" contains such a marker ("LM5",
preceded by an underscore, ending the string), yet `get_tolerance` raises
(the leftmost regex match is the malformed "1.2.3"), returning neither a
tolerance nor `None`. -/
theorem C6_counterexample :
    get_tolerance "A_LM1.2.3_LM5" = .error () ∧
      specMarkerStrict ("A_LM1.2.3_LM5" : String).data := by
  constructor
  · with_unfolding_all rfl
  · exact Or.inr ⟨['A', '_', 'L', 'M', '1', '.', '2', '.', '3'], ['L', 'M', '5'],
      by decide, ['5'], [], by decide,
      ⟨⟨by decide, by decide⟩, by decide, ⟨'5', by decide, by decide⟩⟩,
      Or.inl rfl⟩

/-- C6 amended: (1) `get_tolerance` returns `None` exactly when the label
contains no `LM` marker followed by a `[0-9.]` run in boundary position;
(2) when a marker with a well-formed decimal numeral is present the result is
never `None` — it is a tolerance, or an exception when an earlier marker's
numeral is malformed; (3) every net class recorded by
`get_board_properties` carries a marker, so unmarked labels such as "MISC"
are entirely absent from the mapping. -/
theorem C6_marker_amended :
    (∀ l : String, get_tolerance l = .ok none ↔ ¬ specMarkerLoose l.data) ∧
    (∀ l : String, specMarkerStrict l.data → get_tolerance l ≠ .ok none) ∧
    (∀ (tracks : List Track) (props : List (String × ℤ × List (String × ℤ)))
        (nc : String) (tol : ℤ) (nets : List (String × ℤ)),
      get_board_properties tracks = .ok props → (nc, tol, nets) ∈ props →
      specMarkerLoose nc.data) := by
  refine ⟨get_tolerance_none_iff, ?_, ?_⟩
  · intro l hstrict hnone
    have hloose : specMarkerLoose l.data := by
      rcases hstrict with ⟨num, rest, heq, hDec, hb⟩ | ⟨pre, rest, heq, num, rest2, heq2, hDec, hb⟩
      · exact Or.inl ⟨num, rest, heq, hDec.1, hb⟩
      · exact Or.inr ⟨pre, rest, heq, num, rest2, heq2, hDec.1, hb⟩
    exact ((get_tolerance_none_iff l).mp hnone) hloose
  · intro tracks props nc tol nets hp hmem
    obtain ⟨htol, -⟩ := get_board_properties_mem tracks props hp nc tol nets hmem
    by_contra hno
    have hgt := (get_tolerance_none_iff nc).mpr hno
    rw [htol] at hgt
    exact absurd hgt (by simp)

/-- Witness for C6 amended: the recorded class "G_LM1" of a one-track board
indeed carries a marker. -/
theorem C6_marker_amended_witness : specMarkerLoose ("G_LM1" : String).data :=
  C6_marker_amended.2.2 [⟨"N", "G_LM1", 5⟩] [("G_LM1", 1000000, [("N", 5)])]
    "G_LM1" 1000000 [("N", 5)] (by with_unfolding_all rfl) (by decide)
